import Mathlib

/-!
Verification development for the nervous-system hierarchy program
(`v1_builder.py` plus the demo drivers).

Modelling conventions:
* Python floating-point signal strengths and activity levels are modelled
  exactly as rationals (`ℚ`); the multiplicative factors 0.9, 0.8, 1.2, 0.1
  appearing in the source are the rationals 9/10, 8/10, 12/10, 1/10.
* Python objects live either in a tree model (`STree`, used for the builder
  fixture, which only ever builds a tree) or in an arena/heap model
  (`Heap := List Component`, nodes addressed by index, used for the mutating
  operations `add_child`, `get_path`, `send_signal`).
* A `NeuralSignal` is a fixed-shape value `(signal_type, strength, data)`;
  the duck-typed `hasattr` checks of the source always succeed on it.
* `process_signal` is embedded as a pure function returning the updated
  receiver together with the list of output signals; the source never
  mutates the input signal (each variant constructs fresh outputs).
-/

/-- Embeds `NeuralSignal` from `v1_builder.py`: a signal with a type tag,
a strength and an opaque payload (`data`, a string or `None` in the runs
the program performs). -/
structure NeuralSignal where
  signal_type : String
  strength : ℚ
  data : Option String
deriving DecidableEq, Repr

/-- The behavioural variant of a component: `BasicNervousSystemComponent`,
`BrainRegion` (with its `function` tag and `activity_level`), or
`CorticalArea` (additionally `area_type` and `layers`). -/
inductive Variant where
  | basic : Variant
  | region (function : String) (activity_level : ℚ) : Variant
  | cortical (function : String) (activity_level : ℚ) (area_type : String) (layers : Nat) : Variant
deriving DecidableEq, Repr

/-- The `activity_level` attribute: absent on basic components, present on
`BrainRegion` and `CorticalArea`. -/
def Variant.activity : Variant → Option ℚ
  | .basic => none
  | .region _ a => some a
  | .cortical _ a _ _ => some a

/-- The `function` attribute of region variants. -/
def Variant.function_tag : Variant → Option String
  | .basic => none
  | .region f _ => some f
  | .cortical f _ _ _ => some f

/-- The `area_type` attribute of cortical areas. -/
def Variant.area_tag : Variant → Option String
  | .cortical _ _ t _ => some t
  | _ => none

/-- The `layers` attribute of cortical areas. -/
def Variant.layers_tag : Variant → Option Nat
  | .cortical _ _ _ l => some l
  | _ => none

/-- A node of the arena model: the fields of `NervousSystemComponent`
(`name`, `parent`, `children`, `connections`, `active`) plus the variant
payload. `parent`, `children` and `connections` hold arena indices. -/
structure Component where
  name : String
  parent : Option Nat
  children : List Nat
  connections : List Nat
  active : Bool
  variant : Variant
deriving DecidableEq, Repr

/-- The activity-accumulation step of `BrainRegion.process_signal`
(line 76): `self.activity_level = min(1.0, self.activity_level + signal.strength * 0.1)`. -/
def region_step (a s : ℚ) : ℚ :=
  min 1 (a + s * (1/10))

/-- Embeds `BrainRegion.process_signal` (lines 74-84): update the activity
level and emit one output signal built from the region's `function` and
`name`. -/
def region_process (name function : String) (a : ℚ) (sig : NeuralSignal) :
    ℚ × List NeuralSignal :=
  (region_step a sig.strength,
    [⟨function ++ "_processed", sig.strength * (8/10),
      some ("Processed by " ++ name)⟩])

/-- Embeds `BasicNervousSystemComponent.process_signal` (lines 54-64) for
the fixed-shape signal: all `hasattr` checks succeed, so it always emits one
output with the same kind and payload and strength scaled by 0.9. -/
def basic_process (sig : NeuralSignal) : List NeuralSignal :=
  [⟨sig.signal_type, sig.strength * (9/10), sig.data⟩]

/-- `processed_signals[0].strength *= factor` from
`CorticalArea.process_signal`: rescale the strength of the first signal of
the list. -/
def scale_first (factor : ℚ) : List NeuralSignal → List NeuralSignal
  | [] => []
  | o :: rest => { o with strength := o.strength * factor } :: rest

/-- The polymorphic `process_signal` dispatch, acting on the variant payload
of a node with the given `name`. Mirrors `BasicNervousSystemComponent`,
`BrainRegion` and `CorticalArea.process_signal` (which first calls
`super().process_signal(signal)` and then conditionally rescales the single
output in place). -/
def process_variant (name : String) (v : Variant) (sig : NeuralSignal) :
    Variant × List NeuralSignal :=
  match v with
  | .basic => (.basic, basic_process sig)
  | .region f a =>
    let r := region_process name f a sig
    (.region f r.1, r.2)
  | .cortical f a t l =>
    let r := region_process name f a sig
    let outs :=
      if t = "motor" ∧ sig.signal_type = "motor_command" then
        scale_first (12/10) r.2
      else if t = "sensory" then
        scale_first (9/10) r.2
      else r.2
    (.cortical f r.1 t l, outs)

/-- `process_signal` on an arena node: returns the updated node and the
output signals. Only the variant payload (hence only `activity_level`) can
change. -/
def Component.process_signal (c : Component) (sig : NeuralSignal) :
    Component × List NeuralSignal :=
  let r := process_variant c.name c.variant sig
  ({ c with variant := r.1 }, r.2)

/-- Tree model of a component: the builder only ever assembles a tree
(every node constructed with a `parent` argument is also `add_child`-ed to
that same parent), so the fixture is represented with explicit children
lists; `parent` back-pointers are implicit in the nesting. -/
inductive STree where
  | node (name : String) (variant : Variant) (children : List STree)

def STree.name : STree → String
  | .node n _ _ => n

def STree.variant : STree → Variant
  | .node _ v _ => v

def STree.children : STree → List STree
  | .node _ _ cs => cs

/-- `process_signal` on a tree node: dispatches on the variant, returns the
updated node and the outputs. -/
def STree.process_signal (t : STree) (sig : NeuralSignal) :
    STree × List NeuralSignal :=
  match t with
  | .node n v cs =>
    let r := process_variant n v sig
    (.node n r.1 cs, r.2)

mutual
/-- Embeds `find_component` from the demo drivers: depth-first pre-order
search by exact name, first match wins. -/
def find_component : STree → String → Option STree
  | .node n v cs, target =>
    if n = target then some (.node n v cs) else find_in_children cs target

def find_in_children : List STree → String → Option STree
  | [], _ => none
  | t :: ts, target =>
    match find_component t target with
    | some r => some r
    | none => find_in_children ts target
end

/-- Shorthand for the `BrainRegion(name, function)` constructor: fresh
regions start with `activity_level = 0.0`. -/
def mkRegion (name function : String) (children : List STree) : STree :=
  .node name (.region function 0) children

/-- Shorthand for the `CorticalArea(name, function, area_type)` constructor:
fresh areas start with `activity_level = 0.0` and `layers = 6`. -/
def mkCortical (name function area_type : String) : STree :=
  .node name (.cortical function 0 area_type 6) []

/-- Embeds `NervousSystemBuilder._build_cerebrum` (lines 174-227). -/
def _build_cerebrum : STree :=
  let motor_cortex := mkCortical "PrimaryMotorCortex" "motor_control" "motor"
  let prefrontal := mkCortical "PrefrontalCortex" "executive_function" "association"
  let brocas := mkCortical "BrocasArea" "speech_production" "association"
  let frontal := STree.node "FrontalLobe" .basic [motor_cortex, prefrontal, brocas]
  let somatosensory := mkCortical "PrimarySomatosensoryCortex" "touch_processing" "sensory"
  let posterior_parietal := mkCortical "PosteriorParietalCortex" "spatial_processing" "association"
  let parietal := STree.node "ParietalLobe" .basic [somatosensory, posterior_parietal]
  let auditory := mkCortical "PrimaryAuditoryCortex" "hearing" "sensory"
  let wernickes := mkCortical "WernickesArea" "language_comprehension" "association"
  let hippocampus := mkRegion "Hippocampus" "memory_formation" []
  let temporal := STree.node "TemporalLobe" .basic [auditory, wernickes, hippocampus]
  let visual := mkCortical "PrimaryVisualCortex" "vision" "sensory"
  let visual_assoc := mkCortical "VisualAssociationAreas" "visual_processing" "association"
  let occipital := STree.node "OccipitalLobe" .basic [visual, visual_assoc]
  let cortex := STree.node "CerebralCortex" .basic [frontal, parietal, temporal, occipital]
  let corpus_callosum := mkRegion "CorpusCallosum" "interhemispheric_communication" []
  let internal_capsule := mkRegion "InternalCapsule" "projection_fibers" []
  let white_matter := STree.node "WhiteMatter" .basic [corpus_callosum, internal_capsule]
  STree.node "Cerebrum" .basic [cortex, white_matter]

/-- Embeds `NervousSystemBuilder._build_brainstem` (lines 229-257). -/
def _build_brainstem : STree :=
  let medulla := mkRegion "Medulla" "vital_functions"
    [mkRegion "RespiratoryCenter" "breathing_control" [],
     mkRegion "CardiacCenter" "heart_rate_control" []]
  let pons := mkRegion "Pons" "relay_sleep"
    [mkRegion "PontineNuclei" "motor_relay" [],
     mkRegion "SleepWakeCenters" "sleep_regulation" []]
  let midbrain := mkRegion "Midbrain" "reflexes_reward"
    [mkRegion "SuperiorColliculus" "visual_reflexes" [],
     mkRegion "SubstantiaNigra" "dopamine_production" []]
  STree.node "Brainstem" .basic [medulla, pons, midbrain]

/-- Embeds `NervousSystemBuilder._build_diencephalon` (lines 259-279). -/
def _build_diencephalon : STree :=
  let thalamus := mkRegion "Thalamus" "sensory_relay"
    [mkRegion "SensoryRelayNuclei" "sensory_processing" [],
     mkRegion "MotorRelayNuclei" "motor_processing" []]
  let hypothalamus := mkRegion "Hypothalamus" "homeostasis"
    [mkRegion "ParaventricularNucleus" "hormone_regulation" [],
     mkRegion "SuprachiasmaticNucleus" "circadian_rhythm" []]
  STree.node "Diencephalon" .basic [thalamus, hypothalamus]

/-- Embeds `NervousSystemBuilder._build_limbic_system` (lines 281-303): note
the second node named `"Hippocampus"`, this one with three children. -/
def _build_limbic_system : STree :=
  let hippocampus := mkRegion "Hippocampus" "memory_formation"
    [mkRegion "DentateGyrus" "pattern_separation" [],
     mkRegion "CA1_Field" "memory_output" [],
     mkRegion "CA3_Field" "pattern_completion" []]
  let amygdala := mkRegion "Amygdala" "fear_emotion"
    [mkRegion "CentralNucleus" "fear_response" [],
     mkRegion "BasolateralComplex" "fear_learning" []]
  STree.node "LimbicSystem" .basic [hippocampus, amygdala]

/-- Embeds `NervousSystemBuilder._build_brain` (lines 142-172). -/
def _build_brain : STree :=
  let cerebellum := mkRegion "Cerebellum" "motor_coordination"
    [mkRegion "PurkinjeLayer" "integration" [],
     mkRegion "GranuleLayer" "input_processing" [],
     mkRegion "MolecularLayer" "output_processing" []]
  STree.node "Brain" .basic
    [_build_cerebrum, cerebellum, _build_brainstem, _build_diencephalon,
     _build_limbic_system]

/-- Embeds `NervousSystemBuilder._build_spinal_cord` (lines 305-314). -/
def _build_spinal_cord : STree :=
  STree.node "SpinalCord" .basic
    [mkRegion "CervicalRegion" "spinal_processing" [],
     mkRegion "ThoracicRegion" "spinal_processing" [],
     mkRegion "LumbarRegion" "spinal_processing" [],
     mkRegion "SacralRegion" "spinal_processing" []]

/-- Embeds `NervousSystemBuilder._build_somatic_system` (lines 316-329). -/
def _build_somatic_system : STree :=
  STree.node "SomaticNervousSystem" .basic
    [STree.node "CranialNerves" .basic
      [mkRegion "Olfactory_I" "peripheral_relay" [],
       mkRegion "Optic_II" "peripheral_relay" [],
       mkRegion "Oculomotor_III" "peripheral_relay" [],
       mkRegion "Trigeminal_V" "peripheral_relay" [],
       mkRegion "Facial_VII" "peripheral_relay" [],
       mkRegion "Vestibulocochlear_VIII" "peripheral_relay" [],
       mkRegion "Vagus_X" "peripheral_relay" []]]

/-- Embeds `NervousSystemBuilder._build_autonomic_system` (lines 331-343). -/
def _build_autonomic_system : STree :=
  STree.node "AutonomicNervousSystem" .basic
    [mkRegion "SympatheticNervousSystem" "fight_flight" [],
     mkRegion "ParasympatheticNervousSystem" "rest_digest" []]

/-- Embeds `NervousSystemBuilder.build_complete_system` (lines 112-140). -/
def build_complete_system : STree :=
  STree.node "NervousSystem" .basic
    [STree.node "CentralNervousSystem" .basic
      [_build_brain, _build_spinal_cord],
     STree.node "PeripheralNervousSystem" .basic
      [_build_somatic_system, _build_autonomic_system]]

example :
    process_variant "R" (.region "motor_coordination" 0) ⟨"x", 8/10, none⟩ =
      (.region "motor_coordination" (2/25),
        [⟨"motor_coordination_processed", 16/25, some "Processed by R"⟩]) := by
  simp [process_variant, region_process, region_step, min_def]
  norm_num

example :
    (process_variant "M" (.cortical "motor_control" 0 "motor" 6)
        ⟨"motor_command", 8/10, none⟩).2 =
      [⟨"motor_control_processed", 96/125, some "Processed by M"⟩] := by
  simp [process_variant, region_process, region_step, scale_first, min_def]
  norm_num

example :
    find_component build_complete_system "PrimaryMotorCortex" =
      some (mkCortical "PrimaryMotorCortex" "motor_control" "motor") := by rfl

example :
    find_component build_complete_system "Hippocampus" =
      some (mkRegion "Hippocampus" "memory_formation" []) := by rfl

/-! ### Arena (heap) model for the mutating operations -/

/-- The arena of live components: Python object references become indices
into this list. -/
abbrev Heap := List Component

/-- Replace the element at index `i` (no-op when out of range). -/
def setAt : List α → Nat → α → List α
  | [], _, _ => []
  | _ :: xs, 0, a => a :: xs
  | x :: xs, n + 1, a => x :: setAt xs n a

/-- Apply `f` to the element at index `i` (no-op when out of range). -/
def modifyAt : List α → Nat → (α → α) → List α
  | [], _, _ => []
  | x :: xs, 0, f => f x :: xs
  | x :: xs, n + 1, f => x :: modifyAt xs n f

/-- Embeds `NervousSystemComponent.add_child` (lines 22-25): set
`child.parent = self`, then append `child` to `self.children`. -/
def add_child (h : Heap) (self child : Nat) : Heap :=
  let h1 := modifyAt h child (fun c => { c with parent := some self })
  modifyAt h1 self (fun c => { c with children := c.children ++ [child] })

/-- Embeds `NervousSystemComponent.get_path` (lines 31-35), with fuel making
the recursion through the `parent` chain explicit: `none` means the fuel ran
out (or a dangling index was hit) before a root was reached. -/
def get_path (h : Heap) : Nat → Nat → Option String
  | 0, _ => none
  | fuel + 1, i =>
    match h[i]? with
    | none => none
    | some c =>
      match c.parent with
      | none => some c.name
      | some p =>
        match get_path h fuel p with
        | none => none
        | some pp => some (pp ++ "/" ++ c.name)

/-- The `connections` list of the node at index `i` (empty for a dangling
index). -/
def connsOf (h : Heap) (i : Nat) : List Nat :=
  match h[i]? with
  | none => []
  | some c => c.connections

mutual
/-- Embeds `NervousSystemComponent.send_signal` (lines 43-49), with fuel:
for every connection of node `i`, if the target is active, call its
`process_signal` (mutating it in the heap) and recursively send each output
signal from that target. `none` means the fuel ran out. -/
def send_signal (fuel : Nat) (h : Heap) (i : Nat) (sig : NeuralSignal) :
    Option Heap :=
  match fuel with
  | 0 => none
  | f + 1 =>
    match h[i]? with
    | none => some h
    | some c => send_conns f h c.connections sig
termination_by (fuel, 0, 0)

/-- The `for connection in self.connections` loop of `send_signal`. -/
def send_conns (fuel : Nat) (h : Heap) (conns : List Nat)
    (sig : NeuralSignal) : Option Heap :=
  match conns with
  | [] => some h
  | j :: rest =>
    match h[j]? with
    | none => send_conns fuel h rest sig
    | some c =>
      if c.active then
        match send_outputs fuel (setAt h j (c.process_signal sig).1) j
            (c.process_signal sig).2 with
        | none => none
        | some h2 => send_conns fuel h2 rest sig
      else send_conns fuel h rest sig
termination_by (fuel, 2, conns.length)

/-- The `for output_signal in output_signals` loop of `send_signal`. -/
def send_outputs (fuel : Nat) (h : Heap) (j : Nat)
    (outs : List NeuralSignal) : Option Heap :=
  match outs with
  | [] => some h
  | o :: rest =>
    match send_signal fuel h j o with
    | none => none
    | some h1 => send_outputs fuel h1 j rest
termination_by (fuel, 1, outs.length)
end

/-! ### Derived definitions used by the statements -/

/-- The activity level of a region after a sequence of `process_signal`
calls whose inputs carry the given strengths (line 76 iterated). -/
def activity_after (a : ℚ) (ss : List ℚ) : ℚ :=
  ss.foldl region_step a

/-- The parent chain of the arena is acyclic, witnessed by a rank function
that drops strictly from every node to its parent, and every `parent`
reference is live. -/
def ParentRanked (h : Heap) (rk : Nat → Nat) : Prop :=
  ∀ i c p, h[i]? = some c → c.parent = some p →
    rk p < rk i ∧ (h[p]?).isSome

/-- The `connections` relation of the arena is acyclic, witnessed by a rank
function that drops strictly along every connection edge. -/
def Ranked (h : Heap) (rk : Nat → Nat) : Prop :=
  ∀ i j, j ∈ connsOf h i → rk j < rk i

/-- Two heaps with the same `connections` structure at every index. -/
def ConnsPreserved (h h' : Heap) : Prop :=
  ∀ k, connsOf h' k = connsOf h k

/-! ### Helper lemmas -/

lemma process_signal_connections (c : Component) (sig : NeuralSignal) :
    ((c.process_signal sig).1).connections = c.connections := rfl

lemma get?_lt_length {α : Type} :
    ∀ (l : List α) (i : Nat) (a : α), l[i]? = some a → i < l.length := by
  intro l
  induction l with
  | nil => intro i a hi; simp at hi
  | cons x xs ih =>
    intro i a hi
    cases i with
    | zero => simp
    | succ n =>
      simp only [List.getElem?_cons_succ] at hi
      have := ih n a hi
      simp only [List.length_cons]
      omega

lemma get?_setAt_self {α : Type} :
    ∀ (l : List α) (i : Nat) (a : α), i < l.length →
      (setAt l i a)[i]? = some a := by
  intro l
  induction l with
  | nil => intro i a hi; simp at hi
  | cons x xs ih =>
    intro i a hi
    cases i with
    | zero => simp [setAt]
    | succ n =>
      simp only [setAt, List.getElem?_cons_succ]
      exact ih n a (by simpa using hi)

lemma get?_setAt_ne {α : Type} :
    ∀ (l : List α) (i : Nat) (a : α) (k : Nat), k ≠ i →
      (setAt l i a)[k]? = l[k]? := by
  intro l
  induction l with
  | nil => intro i a k _; simp [setAt]
  | cons x xs ih =>
    intro i a k hk
    cases i with
    | zero =>
      cases k with
      | zero => exact absurd rfl hk
      | succ m => simp [setAt]
    | succ n =>
      cases k with
      | zero => simp [setAt]
      | succ m =>
        simp only [setAt, List.getElem?_cons_succ]
        exact ih n a m (by omega)

lemma connsOf_setAt_process (h : Heap) (j : Nat) (c : Component)
    (sig : NeuralSignal) (hj : h[j]? = some c) :
    ConnsPreserved h (setAt h j (c.process_signal sig).1) := by
  intro k
  by_cases hk : k = j
  · subst hk
    have hlt := get?_lt_length h k _ hj
    simp [connsOf, get?_setAt_self h k _ hlt, hj, process_signal_connections]
  · simp [connsOf, get?_setAt_ne h j _ k hk]

lemma ranked_of_preserved {h h' : Heap} {rk : Nat → Nat}
    (hp : ConnsPreserved h h') (hr : Ranked h rk) : Ranked h' rk := by
  intro i j hj
  exact hr i j (hp i ▸ hj)

lemma preserved_trans {h1 h2 h3 : Heap}
    (a : ConnsPreserved h1 h2) (b : ConnsPreserved h2 h3) :
    ConnsPreserved h1 h3 := by
  intro k; rw [b k, a k]

lemma region_step_le_one (a s : ℚ) : region_step a s ≤ 1 :=
  min_le_left 1 _

lemma le_region_step (a s : ℚ) (ha : a ≤ 1) (hs : 0 ≤ s) :
    a ≤ region_step a s := by
  unfold region_step
  have : a ≤ a + s * (1/10) := by nlinarith
  exact le_min ha this

lemma activity_after_le_one (ss : List ℚ) :
    ∀ a : ℚ, a ≤ 1 → activity_after a ss ≤ 1 := by
  induction ss with
  | nil => intro a ha; simpa [activity_after] using ha
  | cons s rest ih =>
    intro a _
    simpa [activity_after] using ih (region_step a s) (region_step_le_one a s)

lemma le_activity_after (ss : List ℚ) :
    ∀ a : ℚ, a ≤ 1 → (∀ s ∈ ss, 0 ≤ s) → a ≤ activity_after a ss := by
  induction ss with
  | nil => intro a _ _; simp [activity_after]
  | cons s rest ih =>
    intro a ha hs
    have h1 : a ≤ region_step a s := le_region_step a s ha (hs s (by simp))
    have h2 : region_step a s ≤ activity_after (region_step a s) rest :=
      ih (region_step a s) (region_step_le_one a s)
        (fun x hx => hs x (by simp [hx]))
    calc a ≤ region_step a s := h1
    _ ≤ activity_after (region_step a s) rest := h2
    _ = activity_after a (s :: rest) := by simp [activity_after]

/-! ### Claim theorems -/

/-- C1: for every Region-variant node (`BrainRegion`, and `CorticalArea`
through its `super().process_signal` call) and every input signal, one
`process_signal` call emits exactly one output whose kind is
`"<function>_processed"`, whose strength is `input.strength * 0.8` before
any cortical adjustment, and whose payload is `"Processed by <name>"`,
regardless of the input's kind and payload; and the call updates the
node's `activity_level` to `min(1.0, activity_level + strength * 0.1)`. -/
theorem region_process_signal_spec (nm f : String) (a : ℚ) (p : Option Nat)
    (ch cn : List Nat) (b : Bool) (sig : NeuralSignal) :
    (Component.process_signal ⟨nm, p, ch, cn, b, .region f a⟩ sig =
      (⟨nm, p, ch, cn, b, .region f (min 1 (a + sig.strength * (1/10)))⟩,
       [⟨f ++ "_processed", sig.strength * (8/10),
         some ("Processed by " ++ nm)⟩])) ∧
    (∀ t l,
      (Component.process_signal ⟨nm, p, ch, cn, b, .cortical f a t l⟩ sig).1 =
        ⟨nm, p, ch, cn, b,
          .cortical f (min 1 (a + sig.strength * (1/10))) t l⟩ ∧
      (∃ s',
        (Component.process_signal ⟨nm, p, ch, cn, b, .cortical f a t l⟩
            sig).2 =
          [⟨f ++ "_processed", s', some ("Processed by " ++ nm)⟩]) ∧
      (region_process nm f a sig).2 =
        [⟨f ++ "_processed", sig.strength * (8/10),
          some ("Processed by " ++ nm)⟩]) := by
  refine ⟨rfl, fun t l => ⟨rfl, ?_, rfl⟩⟩
  by_cases h1 : t = "motor" ∧ sig.signal_type = "motor_command"
  · exact ⟨sig.strength * (8/10) * (12/10), by
      simp [Component.process_signal, process_variant, region_process,
        scale_first, h1]⟩
  · by_cases h2 : t = "sensory"
    · exact ⟨sig.strength * (8/10) * (9/10), by
        simp [Component.process_signal, process_variant, region_process,
          scale_first, h1, h2]⟩
    · exact ⟨sig.strength * (8/10), by
        simp [Component.process_signal, process_variant, region_process,
          scale_first, h1, h2]⟩

/-- C2: for every `CorticalArea` node and every input of strength `s`,
`process_signal` returns exactly one output whose strength is
`s * 0.96` when `area_type = "motor"` and the input kind is
`"motor_command"`, `s * 0.72` when `area_type = "sensory"` (any input
kind), and `s * 0.8` otherwise. -/
theorem cortical_process_signal_strength_spec (nm f t : String) (l : Nat)
    (a : ℚ) (p : Option Nat) (ch cn : List Nat) (b : Bool)
    (sig : NeuralSignal) :
    ((Component.process_signal ⟨nm, p, ch, cn, b, .cortical f a t l⟩
        sig).2).map NeuralSignal.strength =
      [if t = "motor" ∧ sig.signal_type = "motor_command" then
         sig.strength * (96/100)
       else if t = "sensory" then sig.strength * (72/100)
       else sig.strength * (8/10)] := by
  by_cases h1 : t = "motor" ∧ sig.signal_type = "motor_command"
  · simp [Component.process_signal, process_variant, region_process,
      scale_first, h1]
    ring
  · by_cases h2 : t = "sensory"
    · simp [Component.process_signal, process_variant, region_process,
        scale_first, h1, h2]
      ring
    · simp [Component.process_signal, process_variant, region_process,
        scale_first, h1, h2]

/-- C5: for every base-variant (passthrough) node and every signal of the
fixed shape, `process_signal` emits exactly one output with the same kind,
strength scaled by 0.9, and the same payload; the node is unchanged. -/
theorem basic_process_signal_spec (nm : String) (p : Option Nat)
    (ch cn : List Nat) (b : Bool) (sig : NeuralSignal) :
    Component.process_signal ⟨nm, p, ch, cn, b, .basic⟩ sig =
      (⟨nm, p, ch, cn, b, .basic⟩,
       [⟨sig.signal_type, sig.strength * (9/10), sig.data⟩]) := rfl

/-- C9: for every node variant and every input signal, `process_signal`
leaves every field of the receiver other than `activity_level` unchanged
(`name`, `parent`, `children`, `connections`, `active`, `function`,
`area_type`, `layers`); the input signal itself is a value in this
embedding, matching the source, whose variants construct fresh output
signals and never write to the input's fields. -/
theorem process_signal_frame_spec (c : Component) (sig : NeuralSignal) :
    ((c.process_signal sig).1.name = c.name) ∧
    ((c.process_signal sig).1.parent = c.parent) ∧
    ((c.process_signal sig).1.children = c.children) ∧
    ((c.process_signal sig).1.connections = c.connections) ∧
    ((c.process_signal sig).1.active = c.active) ∧
    ((c.process_signal sig).1.variant.function_tag =
      c.variant.function_tag) ∧
    ((c.process_signal sig).1.variant.area_tag = c.variant.area_tag) ∧
    ((c.process_signal sig).1.variant.layers_tag = c.variant.layers_tag) := by
  obtain ⟨nm, p, ch, cn, b, v⟩ := c
  cases v <;>
    simp [Component.process_signal, process_variant, Variant.function_tag,
      Variant.area_tag, Variant.layers_tag]

/-- C3: in the freshly built system, the node found by name
`"PrimaryMotorCortex"`, given `Signal("motor_command", 0.8,
"move_right_hand")`, returns exactly one output of strength
`0.8 * 0.8 * 1.2 = 0.768` and kind `"motor_control_processed"`, and its
`activity_level` afterwards is `min(1.0, 0 + 0.8 * 0.1) = 0.08`. -/
theorem primary_motor_cortex_demo_spec :
    ∃ t : STree,
      find_component build_complete_system "PrimaryMotorCortex" = some t ∧
      (t.process_signal ⟨"motor_command", 8/10, some "move_right_hand"⟩).2 =
        [⟨"motor_control_processed", 96/125,
          some "Processed by PrimaryMotorCortex"⟩] ∧
      ((t.process_signal
          ⟨"motor_command", 8/10, some "move_right_hand"⟩).1).variant.activity
        = some (2/25) := by
  refine ⟨mkCortical "PrimaryMotorCortex" "motor_control" "motor", rfl,
    ?_, ?_⟩
  · simp [mkCortical, STree.process_signal, process_variant, region_process,
      scale_first, min_def]
    norm_num
  · simp [mkCortical, STree.process_signal, process_variant, region_process,
      region_step, STree.variant, Variant.activity, min_def]
    norm_num

/-- C10: the built system contains two distinct nodes named
`"Hippocampus"`: a childless one under `"TemporalLobe"` (third child) and a
three-child one under `"LimbicSystem"` (first child); the depth-first
pre-order search for `"Hippocampus"` returns the TemporalLobe one. -/
theorem duplicate_hippocampus_spec :
    ∃ tl ls hipL : STree,
      find_component build_complete_system "TemporalLobe" = some tl ∧
      tl.children[2]? = some (mkRegion "Hippocampus" "memory_formation" []) ∧
      find_component build_complete_system "LimbicSystem" = some ls ∧
      ls.children[0]? = some hipL ∧
      hipL.name = "Hippocampus" ∧
      hipL ≠ mkRegion "Hippocampus" "memory_formation" [] ∧
      find_component build_complete_system "Hippocampus" =
        some (mkRegion "Hippocampus" "memory_formation" []) := by
  refine ⟨STree.node "TemporalLobe" .basic
      [mkCortical "PrimaryAuditoryCortex" "hearing" "sensory",
       mkCortical "WernickesArea" "language_comprehension" "association",
       mkRegion "Hippocampus" "memory_formation" []],
    STree.node "LimbicSystem" .basic
      [mkRegion "Hippocampus" "memory_formation"
        [mkRegion "DentateGyrus" "pattern_separation" [],
         mkRegion "CA1_Field" "memory_output" [],
         mkRegion "CA3_Field" "pattern_completion" []],
       mkRegion "Amygdala" "fear_emotion"
        [mkRegion "CentralNucleus" "fear_response" [],
         mkRegion "BasolateralComplex" "fear_learning" []]],
    mkRegion "Hippocampus" "memory_formation"
      [mkRegion "DentateGyrus" "pattern_separation" [],
       mkRegion "CA1_Field" "memory_output" [],
       mkRegion "CA3_Field" "pattern_completion" []],
    rfl, rfl, rfl, rfl, rfl, ?_, rfl⟩
  intro hEq
  have hlen := congrArg (fun t => t.children.length) hEq
  simp [mkRegion, STree.children] at hlen

/-- C4 counterexample: a fresh region whose activity rises to 0.5 on a
strength-5 signal and then falls to 0.2 on a strength-(-3) signal, so
`activity_level` is not monotonically non-decreasing for arbitrary input
strengths. -/
theorem activity_not_monotone_cex :
    ((((Component.process_signal ⟨"R", none, [], [], true, .region "f" 0⟩
            ⟨"k", 5, none⟩).1).process_signal
        ⟨"k", -3, none⟩).1).variant.activity = some (1/5) ∧
    ((Component.process_signal ⟨"R", none, [], [], true, .region "f" 0⟩
        ⟨"k", 5, none⟩).1).variant.activity = some (1/2) ∧
    (1/5 : ℚ) < 1/2 := by
  refine ⟨?_, ?_, by norm_num⟩
  · simp [Component.process_signal, process_variant, region_process,
      region_step, Variant.activity, min_def]
    norm_num
  · simp [Component.process_signal, process_variant, region_process,
      region_step, Variant.activity, min_def]
    norm_num

/-- C4 (amended): starting from any activity level at most 1 (fresh regions
start at 0), the activity level never exceeds 1.0 across any sequence of
`process_signal` calls, whatever the input strengths; and it is
monotonically non-decreasing along the sequence provided every input
strength is nonnegative. -/
theorem activity_monotone_capped_spec (a : ℚ) (ss : List ℚ) (ha : a ≤ 1) :
    activity_after a ss ≤ 1 ∧
    ((∀ s ∈ ss, 0 ≤ s) → ∀ pre post, ss = pre ++ post →
      activity_after a pre ≤ activity_after a ss) := by
  refine ⟨activity_after_le_one ss a ha, ?_⟩
  intro hs pre post hsplit
  subst hsplit
  have h1 : activity_after a pre ≤ 1 := activity_after_le_one pre a ha
  have h2 : ∀ s ∈ post, 0 ≤ s := fun s hx => hs s (by simp [hx])
  have h3 : activity_after a (pre ++ post) =
      activity_after (activity_after a pre) post := by
    simp [activity_after, List.foldl_append]
  rw [h3]
  exact le_activity_after post (activity_after a pre) h1 h2

/-- C4 witness: the amended theorem applied to a fresh region processing
strengths 1 and 2. -/
theorem activity_monotone_capped_witness :
    activity_after 0 [1, 2] ≤ 1 ∧
    ((∀ s ∈ [(1 : ℚ), 2], 0 ≤ s) → ∀ pre post, [(1 : ℚ), 2] = pre ++ post →
      activity_after 0 pre ≤ activity_after 0 [1, 2]) :=
  activity_monotone_capped_spec 0 [1, 2] (by norm_num)

/-- C7: after `a.add_child(c)` then `b.add_child(c)` on three distinct
nodes, `c.parent` is `b` and `c` is in `b.children` — but, contrary to the
claim, the code leaves `c` in `a.children` as well (re-parenting never
removes the child from the old parent's list). This theorem evaluates the
code at that failing input: nodes `a`, `b`, `c` at indices 0, 1, 2. -/
theorem add_child_reparent_eval :
    ((add_child (add_child
        [⟨"a", none, [], [], true, .basic⟩,
         ⟨"b", none, [], [], true, .basic⟩,
         ⟨"c", none, [], [], true, .basic⟩] 0 2) 1 2)[2]?).map
      Component.parent = some (some 1) ∧
    ((add_child (add_child
        [⟨"a", none, [], [], true, .basic⟩,
         ⟨"b", none, [], [], true, .basic⟩,
         ⟨"c", none, [], [], true, .basic⟩] 0 2) 1 2)[1]?).map
      Component.children = some [2] ∧
    ((add_child (add_child
        [⟨"a", none, [], [], true, .basic⟩,
         ⟨"b", none, [], [], true, .basic⟩,
         ⟨"c", none, [], [], true, .basic⟩] 0 2) 1 2)[0]?).map
      Component.children = some [2] := ⟨rfl, rfl, rfl⟩

lemma get_path_mono (h : Heap) :
    ∀ fuel fuel' i s, fuel ≤ fuel' → get_path h fuel i = some s →
      get_path h fuel' i = some s := by
  intro fuel
  induction fuel with
  | zero => intro fuel' i s _ hs; simp [get_path] at hs
  | succ f ih =>
    intro fuel' i s hle hs
    obtain ⟨f', rfl⟩ : ∃ f', fuel' = f' + 1 :=
      ⟨fuel' - 1, by omega⟩
    simp only [get_path] at hs ⊢
    cases hgi : h[i]? with
    | none => simp [hgi] at hs
    | some c =>
      simp only [hgi] at hs ⊢
      cases hp : c.parent with
      | none => simpa [hp] using hs
      | some q =>
        simp only [hp] at hs ⊢
        cases hq : get_path h f q with
        | none => simp [hq] at hs
        | some pp =>
          rw [ih f' q pp (by omega) hq]
          simpa [hq] using hs

/-- C6: for every node whose parent chain is acyclic (witnessed by a rank
function decreasing towards the root) and fully live, `get_path` terminates
and returns the parent's path followed by `"/"` and the node's own name, or
just the node's own name when the node has no parent. The embedding of
`get_path` is a pure function of the heap: the call has no side effect. -/
theorem get_path_spec (h : Heap) (rk : Nat → Nat) (hr : ParentRanked h rk) :
    ∀ fuel i c, h[i]? = some c → rk i < fuel →
      ∃ s, get_path h fuel i = some s ∧
        ((c.parent = none ∧ s = c.name) ∨
         (∃ p ps, c.parent = some p ∧ get_path h fuel p = some ps ∧
           s = ps ++ "/" ++ c.name)) := by
  intro fuel
  induction fuel with
  | zero => intro i c _ hf; omega
  | succ f ih =>
    intro i c hi hf
    cases hp : c.parent with
    | none =>
      exact ⟨c.name, by simp [get_path, hi, hp], Or.inl ⟨rfl, rfl⟩⟩
    | some p =>
      obtain ⟨hrank, hlive⟩ := hr i c p hi hp
      obtain ⟨cp, hcp⟩ := Option.isSome_iff_exists.mp hlive
      obtain ⟨ps, hps, _⟩ := ih p cp hcp (by omega)
      refine ⟨ps ++ "/" ++ c.name, by simp [get_path, hi, hp, hps],
        Or.inr ⟨p, ps, rfl, ?_, rfl⟩⟩
      exact get_path_mono h f (f + 1) p ps (by omega) hps

/-- C6 witness: a two-node heap (root at index 0, its child at index 1)
with the identity rank, evaluated at the child. -/
theorem get_path_spec_witness :
    ∃ s, get_path
        [⟨"root", none, [1], [], true, .basic⟩,
         ⟨"child", some 0, [], [], true, .basic⟩] 2 1 = some s ∧
      (((⟨"child", some 0, [], [], true, .basic⟩ : Component).parent = none ∧
          s = "child") ∨
       (∃ p ps, (⟨"child", some 0, [], [], true,
            .basic⟩ : Component).parent = some p ∧
          get_path
            [⟨"root", none, [1], [], true, .basic⟩,
             ⟨"child", some 0, [], [], true, .basic⟩] 2 p = some ps ∧
          s = ps ++ "/" ++ "child")) := by
  have hr : ParentRanked
      [⟨"root", none, [1], [], true, .basic⟩,
       ⟨"child", some 0, [], [], true, .basic⟩] (fun n => n) := by
    intro i c p hi hp
    match i with
    | 0 =>
      simp at hi
      rw [← hi] at hp
      simp at hp
    | 1 =>
      simp at hi
      rw [← hi] at hp
      simp at hp
      subst hp
      exact ⟨by norm_num, by simp⟩
    | n + 2 => simp at hi
  simpa using get_path_spec
    [⟨"root", none, [1], [], true, .basic⟩,
     ⟨"child", some 0, [], [], true, .basic⟩] (fun n => n) hr 2 1
    ⟨"child", some 0, [], [], true, .basic⟩ (by simp) (by norm_num)

lemma send_conns_total (rk : Nat → Nat) :
    ∀ fuel conns (h : Heap) sig, Ranked h rk →
      (∀ j ∈ conns, rk j < fuel) →
      ∃ h', send_conns fuel h conns sig = some h' ∧ ConnsPreserved h h' := by
  intro fuel
  induction fuel with
  | zero =>
    intro conns h sig _ hmem
    cases conns with
    | nil => exact ⟨h, by simp [send_conns], fun k => rfl⟩
    | cons j rest => exact absurd (hmem j (by simp)) (by omega)
  | succ f ih =>
    have hsig : ∀ (h : Heap) i sig, Ranked h rk → rk i < f + 1 →
        ∃ h', send_signal (f + 1) h i sig = some h' ∧ ConnsPreserved h h' := by
      intro h i sig hR hi
      cases hgi : h[i]? with
      | none => exact ⟨h, by simp [send_signal, hgi], fun k => rfl⟩
      | some c =>
        have hm : ∀ j ∈ c.connections, rk j < f := by
          intro j hj
          have hcon : j ∈ connsOf h i := by simp [connsOf, hgi, hj]
          have := hR i j hcon
          omega
        obtain ⟨h', e, pres⟩ := ih c.connections h sig hR hm
        exact ⟨h', by simp [send_signal, hgi, e], pres⟩
    have houts : ∀ outs (h : Heap) j, Ranked h rk → rk j < f + 1 →
        ∃ h', send_outputs (f + 1) h j outs = some h' ∧
          ConnsPreserved h h' := by
      intro outs
      induction outs with
      | nil => intro h j _ _; exact ⟨h, by simp [send_outputs], fun k => rfl⟩
      | cons o os iho =>
        intro h j hR hj
        obtain ⟨h1, e1, p1⟩ := hsig h j o hR hj
        obtain ⟨h2, e2, p2⟩ := iho h1 j (ranked_of_preserved p1 hR) hj
        exact ⟨h2, by simp [send_outputs, e1, e2], preserved_trans p1 p2⟩
    intro conns
    induction conns with
    | nil => intro h sig _ _; exact ⟨h, by simp [send_conns], fun k => rfl⟩
    | cons j rest ihc =>
      intro h sig hR hmem
      cases hgj : h[j]? with
      | none =>
        obtain ⟨h', e, pres⟩ := ihc h sig hR
          (fun x hx => hmem x (by simp [hx]))
        exact ⟨h', by simp [send_conns, hgj, e], pres⟩
      | some c =>
        by_cases hact : c.active
        · have hpre : ConnsPreserved h
              (setAt h j (c.process_signal sig).1) :=
            connsOf_setAt_process h j c sig hgj
          obtain ⟨h2, e2, p2⟩ := houts (c.process_signal sig).2
            (setAt h j (c.process_signal sig).1) j
            (ranked_of_preserved hpre hR) (hmem j (by simp))
          obtain ⟨h3, e3, p3⟩ := ihc h2 sig
            (ranked_of_preserved (preserved_trans hpre p2) hR)
            (fun x hx => hmem x (by simp [hx]))
          refine ⟨h3, ?_, preserved_trans (preserved_trans hpre p2) p3⟩
          simp [send_conns, hgj, hact, e2, e3]
        · obtain ⟨h', e, pres⟩ := ihc h sig hR
            (fun x hx => hmem x (by simp [hx]))
          exact ⟨h', by simp [send_conns, hgj, hact, e], pres⟩

lemma send_signal_total (h : Heap) (rk : Nat → Nat) (hr : Ranked h rk)
    (fuel i : Nat) (sig : NeuralSignal) (hf : rk i < fuel) :
    ∃ h', send_signal fuel h i sig = some h' ∧ ConnsPreserved h h' := by
  obtain ⟨f, rfl⟩ : ∃ f, fuel = f + 1 := ⟨fuel - 1, by omega⟩
  cases hgi : h[i]? with
  | none => exact ⟨h, by simp [send_signal, hgi], fun k => rfl⟩
  | some c =>
    have hm : ∀ j ∈ c.connections, rk j < f := by
      intro j hj
      have hcon : j ∈ connsOf h i := by simp [connsOf, hgi, hj]
      have := hr i j hcon
      omega
    obtain ⟨h', e, pres⟩ := send_conns_total rk f c.connections h sig hr hm
    exact ⟨h', by simp [send_signal, hgi, e], pres⟩

/-- C8: `send_signal` processes exactly those entries of the node's
`connections` whose target is active — for an active target it calls the
target's `process_signal` and then recursively propagates every resulting
output signal from that target, for an inactive one it moves on — and,
although the code has no cycle guard or depth limit, the recursion
terminates (fuel `> rank` suffices) for every input signal whenever the
connections relation over the finite node set is acyclic, witnessed by a
rank function decreasing along every connection edge. -/
theorem send_signal_spec (h : Heap) (rk : Nat → Nat) (hr : Ranked h rk)
    (fuel i : Nat) (sig : NeuralSignal) (hf : rk i < fuel) :
    (∃ h', send_signal fuel h i sig = some h') ∧
    (∀ f c, h[i]? = some c →
      send_signal (f + 1) h i sig = send_conns f h c.connections sig) ∧
    (∀ f (h0 : Heap) j rest (s : NeuralSignal) c, h0[j]? = some c →
      send_conns f h0 (j :: rest) s =
        if c.active then
          match send_outputs f (setAt h0 j (c.process_signal s).1) j
              (c.process_signal s).2 with
          | none => none
          | some h2 => send_conns f h2 rest s
        else send_conns f h0 rest s) ∧
    (∀ f (h0 : Heap) j (o : NeuralSignal) os,
      send_outputs f h0 j (o :: os) =
        match send_signal f h0 j o with
        | none => none
        | some h1 => send_outputs f h1 j os) := by
  refine ⟨?_, ?_, ?_, ?_⟩
  · obtain ⟨h', e, _⟩ := send_signal_total h rk hr fuel i sig hf
    exact ⟨h', e⟩
  · intro f c hc
    simp [send_signal, hc]
  · intro f h0 j rest s c hc
    simp [send_conns, hc]
  · intro f h0 j o os
    simp [send_outputs]

/-- C8 witness: a two-node heap in which node 0 is connected to the active
node 1 and the connection graph is acyclic; fuel 2 completes the
broadcast. -/
theorem send_signal_spec_witness :
    ∃ h', send_signal 2
        [⟨"n0", none, [], [1], true, .basic⟩,
         ⟨"n1", none, [], [], true, .region "g" 0⟩] 0 ⟨"k", 1, none⟩ =
      some h' := by
  have hr : Ranked
      [⟨"n0", none, [], [1], true, .basic⟩,
       ⟨"n1", none, [], [], true, .region "g" 0⟩] (fun n => 1 - n) := by
    intro i j hj
    match i with
    | 0 =>
      simp [connsOf] at hj
      subst hj
      norm_num
    | 1 => simp [connsOf] at hj
    | n + 2 => simp [connsOf] at hj
  exact (send_signal_spec _ (fun n => 1 - n) hr 2 0 ⟨"k", 1, none⟩
    (by norm_num)).1
